import Mathlib

/-!
Shallow embedding of the dASTardly core (packages/core and packages/validation):
the AST data model, the content hasher (`identity.ts`), the diff engine
(`diff.ts`), JSON-pointer navigation (`pointer.ts`) and the validation cache
(`cache.ts`), together with proofs of the specified properties.
-/

set_option maxHeartbeats 1000000

namespace Dastardly

/-! ## Data model (core AST type definitions) -/

/-- A position in source text (line, column, byte offset). -/
structure Position where
  line : Nat
  column : Nat
  offset : Nat
deriving DecidableEq

/-- Source location with format metadata: a start/end range plus an optional
source-format tag.  The TypeScript `SourceLocation` extends `SourceRange`;
we flatten the extension. -/
structure SourceLocation where
  start : Position
  endPos : Position
  source : Option String
deriving DecidableEq

/-- String node used as an object-property key (`StringNode` in `types.ts`). -/
structure StringNode where
  value : String
  raw : Option String
  loc : SourceLocation
deriving DecidableEq

mutual
/-- Data nodes (`DataNode` in `types.ts`): the tagged union of value nodes and
container nodes.  Every node carries a source-location annotation `loc`;
string and number nodes additionally carry the optional raw literal text.
JavaScript numbers are modelled as integers (every value exercised by the
claims is integral). -/
inductive DataNode : Type where
  | string (value : String) (raw : Option String) (loc : SourceLocation)
  | number (value : Int) (raw : Option String) (loc : SourceLocation)
  | boolean (value : Bool) (loc : SourceLocation)
  | null (loc : SourceLocation)
  | object (properties : List PropertyNode) (loc : SourceLocation)
  | array (elements : List DataNode) (loc : SourceLocation)

/-- Object property (`PropertyNode` in `types.ts`): key-value pair with its
own source location. -/
inductive PropertyNode : Type where
  | mk (key : StringNode) (value : DataNode) (loc : SourceLocation)
end

/-- Document root node (`DocumentNode` in `types.ts`). -/
structure DocumentNode where
  body : DataNode
  loc : SourceLocation

/-- The key of a property. -/
def PropertyNode.key : PropertyNode → StringNode
  | .mk k _ _ => k

/-- The value of a property. -/
def PropertyNode.value : PropertyNode → DataNode
  | .mk _ v _ => v

/-! ## Content hasher (`identity.ts`) -/

/-- Semantic representation of an AST node (`SemanticNode` in `identity.ts`):
position-free, keeps only kind, value, keys and child order. -/
inductive SemanticNode : Type where
  | string (value : String)
  | number (value : Int)
  | boolean (value : Bool)
  | null
  | object (properties : List (String × SemanticNode))
  | array (elements : List SemanticNode)

mutual
/-- `toSemantic` from `identity.ts`: strips position info, keeps only
semantic content. -/
def toSemantic : DataNode → SemanticNode
  | .string v _ _ => .string v
  | .number v _ _ => .number v
  | .boolean v _ => .boolean v
  | .null _ => .null
  | .object props _ => .object (toSemanticProps props)
  | .array elems _ => .array (toSemanticElems elems)

/-- Semantic forms of an object's properties, in order (the `map` inside
`toSemantic`'s `Object` case). -/
def toSemanticProps : List PropertyNode → List (String × SemanticNode)
  | [] => []
  | .mk k v _ :: rest => (k.value, toSemantic v) :: toSemanticProps rest

/-- Semantic forms of an array's elements, in order (the `map` inside
`toSemantic`'s `Array` case). -/
def toSemanticElems : List DataNode → List SemanticNode
  | [] => []
  | e :: rest => toSemantic e :: toSemanticElems rest
end

mutual
/-- Modelled from the spec: the `object-hash` library call in `hashNode`
(sha1 over a canonical serialization of the semantic form, with
`respectType: true` and ordered arrays/objects) is not part of this
repository's sources.  Following spec §4.2 — the digest is deterministic and
distinct semantic forms receive distinct digests — we model the digest as an
injective, type-tagged, length-prefixed canonical serialization of the
semantic form. -/
def hashSemantic : SemanticNode → String
  | .string v => "S" ++ toString v.length ++ ":" ++ v
  | .number v => "N" ++ toString v ++ ";"
  | .boolean true => "T"
  | .boolean false => "F"
  | .null => "Z"
  | .array es => "A" ++ toString es.length ++ ":" ++ hashSemanticElems es
  | .object ps => "O" ++ toString ps.length ++ ":" ++ hashSemanticProps ps

/-- Serialization of a list of semantic elements, in order. -/
def hashSemanticElems : List SemanticNode → String
  | [] => ""
  | s :: rest => hashSemantic s ++ hashSemanticElems rest

/-- Serialization of a list of key/semantic-value pairs, in order. -/
def hashSemanticProps : List (String × SemanticNode) → String
  | [] => ""
  | (k, v) :: rest =>
      "K" ++ toString k.length ++ ":" ++ k ++ hashSemantic v ++ hashSemanticProps rest
end

/-- `hashNode` from `identity.ts`: content hash of a node, computed from the
semantic representation only. -/
def hashNode (node : DataNode) : String :=
  hashSemantic (toSemantic node)

/-- Replace the source-range annotation carried by a node. -/
def DataNode.withLoc : DataNode → SourceLocation → DataNode
  | .string v r _, l => .string v r l
  | .number v r _, l => .number v r l
  | .boolean v _, l => .boolean v l
  | .null _, l => .null l
  | .object ps _, l => .object ps l
  | .array es _, l => .array es l

theorem toSemantic_withLoc (n : DataNode) (l : SourceLocation) :
    toSemantic (n.withLoc l) = toSemantic n := by
  cases n <;> rfl

/-- C1: the content hash depends only on semantic content, never on the
source-range annotation: hashing a node carrying annotation `r1` gives the
same digest as hashing it carrying `r2`. -/
theorem hashNode_position_insensitive (n : DataNode) (r1 r2 : SourceLocation) :
    hashNode (n.withLoc r1) = hashNode (n.withLoc r2) := by
  unfold hashNode
  rw [toSemantic_withLoc, toSemantic_withLoc]

/-! ## Path addressing (`pointer.ts` and the `json-pointer` library) -/

/-- One pass of the json-pointer unescape: replace every occurrence of the
two-character pattern `'~' d` by the single character `r`, left to right. -/
def replTilde (d r : Char) : List Char → List Char
  | [] => []
  | [c] => [c]
  | c :: c2 :: rest =>
    if c = '~' ∧ c2 = d then r :: replTilde d r rest
    else c :: replTilde d r (c2 :: rest)

/-- One pass of the json-pointer escape: replace every occurrence of the
character `a` by the character sequence `s`, left to right. -/
def replChar (a : Char) (s : List Char) : List Char → List Char
  | [] => []
  | c :: rest => if c = a then s ++ replChar a s rest else c :: replChar a s rest

/-- Modelled from the spec: `unescape` of the external `json-pointer`
library, absent from the sources (§4.1: unescapes `~1` to `/` and then `~0`
to `~`, in that order). -/
def unescapeSeg (s : List Char) : List Char :=
  replTilde '0' '~' (replTilde '1' '/' s)

/-- Modelled from the spec: `escape` of the external `json-pointer` library,
absent from the sources (§4.1: escapes `~` to `~0` and then `/` to `~1`, in
that order). -/
def escapeSeg (s : List Char) : List Char :=
  replChar '/' ['~', '1'] (replChar '~' ['~', '0'] s)

/-- `escapePointer` from `identity.ts`: replaces `~` with `~0`, then `/`
with `~1`. -/
def escapePointer (s : String) : String :=
  String.mk (replChar '/' ['~', '1'] (replChar '~' ['~', '0'] s.toList))

/-- Split a character list on `'/'`: first chunk plus the remaining chunks. -/
def splitSlash : List Char → List Char × List (List Char)
  | [] => ([], [])
  | c :: rest =>
    let p := splitSlash rest
    if c = '/' then ([], p.1 :: p.2) else (c :: p.1, p.2)

/-- Join chunks with `'/'` separators (left inverse of `splitSlash`). -/
def joinSlash (s : List Char) : List (List Char) → List Char
  | [] => s
  | t :: ts => s ++ '/' :: joinSlash t ts

/-- Modelled from the spec: `parse` of the external `json-pointer` library,
absent from the sources (§4.1): `""` yields no segments; any other input
must start with `/` or is an `InvalidPath` error; otherwise the rest is
split on `/` and each segment unescaped. -/
def parsePointer (ptr : String) : Except String (List String) :=
  match ptr.toList with
  | [] => .ok []
  | '/' :: rest =>
    let p := splitSlash rest
    .ok ((p.1 :: p.2).map (fun s => String.mk (unescapeSeg s)))
  | _ => .error ("Invalid JSON pointer: " ++ ptr)

/-- Modelled from the spec: `compile` of the external `json-pointer`
library, absent from the sources (§4.1): escapes each segment, joins with
`/` and prefixes `/`; an empty segment list yields `""`. -/
def compilePointer (segments : List String) : String :=
  match segments with
  | [] => ""
  | s :: ss =>
    String.mk ('/' :: joinSlash (escapeSeg s.toList) (ss.map (fun t => escapeSeg t.toList)))

/-- JavaScript whitespace as skipped by `parseInt`. -/
def isJsSpace (c : Char) : Bool :=
  c = ' ' ∨ c = '\t' ∨ c = '\n' ∨ c = '\r' ∨ c = '\x0b' ∨ c = '\x0c'

/-- Numeric value of a list of decimal digits. -/
def digitsVal (l : List Char) : Nat :=
  l.foldl (fun a c => 10 * a + (c.toNat - 48)) 0

/-- Digit-prefix part of `parseIntJS`: the longest prefix of decimal digits,
`none` (JavaScript `NaN`) when that prefix is empty. -/
def parseIntDigits (u : List Char) (sign : Int) : Option Int :=
  let ds := u.takeWhile (fun c => c.isDigit)
  if ds.isEmpty then none else some (sign * (digitsVal ds : Int))

/-- JavaScript `parseInt(s, 10)` as used by `traversePath`: skip leading
whitespace, read an optional sign, then the longest prefix of decimal
digits; `NaN` (modelled as `none`) if that prefix is empty. -/
def parseIntJS (s : String) : Option Int :=
  match s.toList.dropWhile isJsSpace with
  | '+' :: u => parseIntDigits u 1
  | '-' :: u => parseIntDigits u (-1)
  | u => parseIntDigits u 1

/-- The segment loop of `traversePath` in `pointer.ts`: walk the tree
following the parsed segments.  At an `Object`, find the first property
whose key equals the segment; at an `Array`, interpret the segment with
`parseInt` and require `0 <= index < length`; a scalar with remaining
segments yields `undefined`.  (The parsed segments are always strings, so
the `typeof segment === 'number'` branch of the source is vacuous.) -/
def traverseLoop : DataNode → List String → Option DataNode
  | current, [] => some current
  | current, seg :: rest =>
    match current with
    | .object props _ =>
      match props.find? (fun p => p.key.value == seg) with
      | none => none
      | some prop => traverseLoop prop.value rest
    | .array elems _ =>
      match parseIntJS seg with
      | none => none
      | some index =>
        if h : index < 0 ∨ (elems.length : Int) ≤ index then none
        else traverseLoop (elems.get ⟨index.toNat, by omega⟩) rest
    | _ => none

/-- `traversePath` from `pointer.ts`: parse the pointer (which may raise
`InvalidPath`, modelled as `Except.error`), then walk the tree. -/
def traversePath (node : DataNode) (ptr : String) : Except String (Option DataNode) :=
  match parsePointer ptr with
  | .error e => .error e
  | .ok segs => .ok (traverseLoop node segs)

/-- `getByPointer` from `pointer.ts`: the empty pointer returns the document
body; otherwise traverse, converting any raised error into `undefined`. -/
def getByPointer (root : DocumentNode) (ptr : String) : Option DataNode :=
  if ptr = "" then some root.body
  else
    match traversePath root.body ptr with
    | .error _ => none
    | .ok r => r

/-! ## Validity of pointer syntax and the round-trip law -/

/-- A syntactically valid (escaped) path segment: no `/`, and every `~`
immediately followed by `0` or `1`. -/
def validSeg : List Char → Bool
  | [] => true
  | c :: rest =>
    if c = '/' then false
    else if c = '~' then
      match rest with
      | [] => false
      | c2 :: r2 => if c2 = '0' ∨ c2 = '1' then validSeg r2 else false
    else validSeg rest

/-- A syntactically valid pointer tail (everything after the leading `/`):
`/` separators are allowed, and every `~` is immediately followed by `0` or
`1`. -/
def validTail : List Char → Bool
  | [] => true
  | c :: rest =>
    if c = '~' then
      match rest with
      | [] => false
      | c2 :: r2 => if c2 = '0' ∨ c2 = '1' then validTail r2 else false
    else validTail rest

/-- A syntactically valid pointer: empty, or `/` followed by a valid tail. -/
def validPtr (p : String) : Bool :=
  match p.toList with
  | [] => true
  | '/' :: rest => validTail rest
  | _ => false

/-- One-pass reference escape used to reason about the two-pass `escapeSeg`. -/
def escOne : List Char → List Char
  | [] => []
  | c :: rest =>
    if c = '~' then '~' :: '0' :: escOne rest
    else if c = '/' then '~' :: '1' :: escOne rest
    else c :: escOne rest

/-- One-pass reference unescape used to reason about the two-pass
`unescapeSeg`; agrees with it on valid segments. -/
def unescOne : List Char → List Char
  | [] => []
  | [c] => [c]
  | c :: c2 :: rest =>
    if c = '~' ∧ c2 = '0' then '~' :: unescOne rest
    else if c = '~' ∧ c2 = '1' then '/' :: unescOne rest
    else c :: unescOne (c2 :: rest)

theorem replChar_append (a : Char) (s : List Char) (xs ys : List Char) :
    replChar a s (xs ++ ys) = replChar a s xs ++ replChar a s ys := by
  induction xs with
  | nil => rfl
  | cons c rest ih =>
    by_cases hc : c = a <;> simp [replChar, hc, ih]

theorem replTilde_cons_ne (d r : Char) (c : Char) (t : List Char) (hc : c ≠ '~') :
    replTilde d r (c :: t) = c :: replTilde d r t := by
  cases t with
  | nil => rfl
  | cons c2 r2 => simp [replTilde, hc]

theorem escapeSeg_eq_escOne (s : List Char) : escapeSeg s = escOne s := by
  induction s with
  | nil => rfl
  | cons c rest ih =>
    unfold escapeSeg at ih ⊢
    by_cases h1 : c = '~'
    · subst h1
      simp [replChar, replChar_append, escOne, ih]
    · by_cases h2 : c = '/'
      · subst h2
        simp [replChar, escOne, ih]
      · simp [replChar, escOne, h1, h2, ih]

theorem unescapeSeg_eq_unescOne (s : List Char) (h : validSeg s = true) :
    unescapeSeg s = unescOne s := by
  induction s using validSeg.induct with
  | case1 => rfl
  | case2 r2 =>
    exfalso
    unfold validSeg at h
    simp at h
  | case3 _ =>
    exfalso
    unfold validSeg at h
    simp at h
  | case4 c2 r2 hc2 _ ih =>
    unfold validSeg at h
    simp only [if_neg (by decide : ¬('~' : Char) = '/'), if_pos rfl, if_pos hc2] at h
    unfold unescapeSeg at ih ⊢
    rcases hc2 with h0 | h1
    · subst h0
      simp [replTilde, unescOne, ih h,
        replTilde_cons_ne '1' '/' '0' r2 (by decide),
        replTilde_cons_ne '0' '~' '0' r2 (by decide)]
    · subst h1
      simp [replTilde, unescOne, ih h,
        replTilde_cons_ne '0' '~' '/' (replTilde '1' '/' r2) (by decide)]
  | case5 c2 r2 hc2 _ =>
    exfalso
    unfold validSeg at h
    simp only [if_neg (by decide : ¬('~' : Char) = '/'), if_pos rfl, if_neg hc2] at h
    exact Bool.false_ne_true h
  | case6 c r2 hslash htilde ih =>
    unfold validSeg at h
    simp only [if_neg hslash, if_neg htilde] at h
    unfold unescapeSeg at ih ⊢
    rw [replTilde_cons_ne '1' '/' c r2 htilde,
      replTilde_cons_ne '0' '~' c _ htilde, ih h]
    cases r2 with
    | nil => simp [unescOne]
    | cons d t =>
      simp only [unescOne]
      rw [if_neg (by simp [htilde]), if_neg (by simp [htilde])]

theorem escOne_unescOne (s : List Char) (h : validSeg s = true) :
    escOne (unescOne s) = s := by
  induction s using validSeg.induct with
  | case1 => rfl
  | case2 r2 => unfold validSeg at h; simp at h
  | case3 _ => unfold validSeg at h; simp at h
  | case4 c2 r2 hc2 _ ih =>
    unfold validSeg at h
    simp only [if_neg (by decide : ¬('~' : Char) = '/'), if_pos rfl, if_pos hc2] at h
    rcases hc2 with h0 | h1
    · subst h0
      simp [unescOne, escOne, ih h]
    · subst h1
      simp [unescOne, escOne, ih h]
  | case5 c2 r2 hc2 _ =>
    unfold validSeg at h
    simp only [if_neg (by decide : ¬('~' : Char) = '/'), if_pos rfl, if_neg hc2] at h
    exact absurd h Bool.false_ne_true
  | case6 c r2 hslash htilde ih =>
    unfold validSeg at h
    simp only [if_neg hslash, if_neg htilde] at h
    have step : unescOne (c :: r2) = c :: unescOne r2 := by
      cases r2 with
      | nil => rfl
      | cons d t =>
        simp only [unescOne]
        rw [if_neg (by simp [htilde]), if_neg (by simp [htilde])]
    rw [step]
    simp [escOne, htilde, hslash, ih h]

theorem escapeSeg_unescapeSeg (s : List Char) (h : validSeg s = true) :
    escapeSeg (unescapeSeg s) = s := by
  rw [escapeSeg_eq_escOne, unescapeSeg_eq_unescOne s h, escOne_unescOne s h]

theorem joinSlash_cons (c : Char) (s : List Char) (ss : List (List Char)) :
    joinSlash (c :: s) ss = c :: joinSlash s ss := by
  cases ss <;> rfl

theorem splitSlash_cons_slash (rest : List Char) :
    splitSlash ('/' :: rest) = ([], (splitSlash rest).1 :: (splitSlash rest).2) := rfl

theorem splitSlash_cons_ne (c : Char) (rest : List Char) (hc : c ≠ '/') :
    splitSlash (c :: rest) = (c :: (splitSlash rest).1, (splitSlash rest).2) := by
  conv_lhs => unfold splitSlash
  rw [if_neg hc]

theorem joinSlash_splitSlash (l : List Char) :
    joinSlash (splitSlash l).1 (splitSlash l).2 = l := by
  induction l with
  | nil => rfl
  | cons c rest ih =>
    by_cases hc : c = '/'
    · subst hc
      rw [splitSlash_cons_slash]
      show ([] : List Char) ++ '/' :: joinSlash (splitSlash rest).1 (splitSlash rest).2 = _
      rw [List.nil_append, ih]
    · rw [splitSlash_cons_ne c rest hc, joinSlash_cons, ih]

theorem validTail_tilde (c2 : Char) (r2 : List Char) :
    validTail ('~' :: c2 :: r2) =
      if c2 = '0' ∨ c2 = '1' then validTail r2 else false := rfl

theorem validTail_cons_ne (c : Char) (rest : List Char) (hc : c ≠ '~') :
    validTail (c :: rest) = validTail rest := by
  conv_lhs => unfold validTail
  rw [if_neg hc]

theorem validSeg_tilde (c2 : Char) (r2 : List Char) :
    validSeg ('~' :: c2 :: r2) =
      if c2 = '0' ∨ c2 = '1' then validSeg r2 else false := rfl

theorem validSeg_cons_ne (c : Char) (rest : List Char) (h1 : c ≠ '/') (h2 : c ≠ '~') :
    validSeg (c :: rest) = validSeg rest := by
  conv_lhs => unfold validSeg
  rw [if_neg h1, if_neg h2]

theorem splitSlash_valid (l : List Char) (h : validTail l = true) :
    validSeg (splitSlash l).1 = true ∧
      ∀ t ∈ (splitSlash l).2, validSeg t = true := by
  induction l using validTail.induct with
  | case1 => exact ⟨rfl, fun t ht => absurd ht (List.not_mem_nil t)⟩
  | case2 => exact absurd h (by decide)
  | case3 c2 r2 hc2 ih =>
    rw [validTail_tilde, if_pos hc2] at h
    have hc2s : c2 ≠ '/' := by rcases hc2 with h0 | h0 <;> subst h0 <;> decide
    obtain ⟨ih1, ih2⟩ := ih h
    rw [splitSlash_cons_ne '~' _ (by decide), splitSlash_cons_ne c2 _ hc2s]
    refine ⟨?_, ih2⟩
    rw [validSeg_tilde, if_pos hc2]
    exact ih1
  | case4 c2 r2 hc2 =>
    rw [validTail_tilde, if_neg hc2] at h
    exact absurd h Bool.false_ne_true
  | case5 c rest htilde ih =>
    rw [validTail_cons_ne c rest htilde] at h
    obtain ⟨ih1, ih2⟩ := ih h
    by_cases hc : c = '/'
    · subst hc
      rw [splitSlash_cons_slash]
      refine ⟨rfl, ?_⟩
      intro t ht
      rcases List.mem_cons.mp ht with h0 | h0
      · rw [h0]; exact ih1
      · exact ih2 t h0
    · rw [splitSlash_cons_ne c rest hc]
      refine ⟨?_, ih2⟩
      rw [validSeg_cons_ne c _ hc htilde]
      exact ih1

theorem string_mk_toList (p : String) : String.mk p.toList = p := by
  cases p
  rfl

/-- C4: the path round-trip law.  For every syntactically valid pointer
(empty, or starting with `/` with only the escapes `~0` and `~1`),
compiling the parsed segments returns the original string; in particular
the single segment "a/b" compiles to "/a~1b" and "a~b" to "/a~0b". -/
theorem compilePointer_parsePointer_roundtrip (p : String) (h : validPtr p = true) :
    Except.map compilePointer (parsePointer p) = .ok p ∧
    compilePointer ["a/b"] = "/a~1b" ∧
    compilePointer ["a~b"] = "/a~0b" := by
  refine ⟨?_, rfl, rfl⟩
  unfold validPtr at h
  cases hl : p.toList with
  | nil =>
    have hp : p = "" := by
      rw [← string_mk_toList p, hl]
    subst hp
    rfl
  | cons c rest =>
    rw [hl] at h
    have hc : c = '/' := by
      by_contra hne
      have hfalse : (match c :: rest with
          | [] => true
          | '/' :: rest => validTail rest
          | _ => false) = false := by
        split <;> simp_all
      rw [hfalse] at h
      exact Bool.false_ne_true h
    subst hc
    have htail : validTail rest = true := h
    have hparse : parsePointer p =
        .ok (((splitSlash rest).1 :: (splitSlash rest).2).map
          (fun s => String.mk (unescapeSeg s))) := by
      unfold parsePointer
      rw [hl]
      rfl
    obtain ⟨hv1, hv2⟩ := splitSlash_valid rest htail
    have hcomp : compilePointer (((splitSlash rest).1 :: (splitSlash rest).2).map
        (fun s => String.mk (unescapeSeg s))) = p := by
      unfold compilePointer
      simp only [List.map_cons, List.map_map]
      rw [show ((fun t => escapeSeg t.toList) ∘ fun s => String.mk (unescapeSeg s)) =
          (fun s => escapeSeg (unescapeSeg s)) from rfl]
      rw [show (String.mk (unescapeSeg (splitSlash rest).1)).toList =
          unescapeSeg (splitSlash rest).1 from rfl]
      rw [escapeSeg_unescapeSeg _ hv1]
      rw [List.map_congr_left (fun t ht => escapeSeg_unescapeSeg t (hv2 t ht))]
      have hid : List.map (fun t => t) (splitSlash rest).2 = (splitSlash rest).2 := by
        simp
      rw [hid, joinSlash_splitSlash, ← hl, string_mk_toList]
    rw [hparse]
    show Except.ok _ = Except.ok p
    rw [hcomp]

/-! ## Navigation semantics and error behaviour -/

theorem find?_append_first {α : Type} (f : α → Bool) (pre : List α) (x : α)
    (post : List α) (hpre : ∀ q ∈ pre, f q = false) (hx : f x = true) :
    List.find? f (pre ++ x :: post) = some x := by
  induction pre with
  | nil =>
    rw [List.nil_append, List.find?_cons_of_pos _ hx]
  | cons q rest ih =>
    rw [List.cons_append, List.find?_cons_of_neg _ (by
      rw [hpre q (List.mem_cons_self q rest)]
      exact Bool.false_ne_true)]
    exact ih (fun a ha => hpre a (List.mem_cons_of_mem q ha))

/-- C3: navigation semantics of `getByPath`.  On a parsed path the walk
proceeds segment by segment: at an `Object` the segment is matched against
property keys by exact string equality with the first match winning when
duplicate keys exist, and a missing key is not-found; at an `Array` the
segment must `parseInt` to an index with `0 <= index < length`, and a
non-numeric segment or out-of-range index is not-found; a scalar node with
remaining segments is not-found; and for a non-empty pointer whose syntax
parses, `getByPointer` is exactly this walk from the document body. -/
theorem traversePath_navigation :
    (∀ (loc : SourceLocation) (pre : List PropertyNode) (prop : PropertyNode)
        (post : List PropertyNode) (rest : List String),
      (∀ q ∈ pre, q.key.value ≠ prop.key.value) →
      traverseLoop (.object (pre ++ prop :: post) loc) (prop.key.value :: rest) =
        traverseLoop prop.value rest) ∧
    (∀ (loc : SourceLocation) (props : List PropertyNode) (seg : String)
        (rest : List String),
      (∀ q ∈ props, q.key.value ≠ seg) →
      traverseLoop (.object props loc) (seg :: rest) = none) ∧
    (∀ (loc : SourceLocation) (elems : List DataNode) (seg : String)
        (rest : List String) (i : Nat) (h : i < elems.length),
      parseIntJS seg = some (i : Int) →
      traverseLoop (.array elems loc) (seg :: rest) =
        traverseLoop (elems.get ⟨i, h⟩) rest) ∧
    (∀ (loc : SourceLocation) (elems : List DataNode) (seg : String)
        (rest : List String),
      parseIntJS seg = none →
      traverseLoop (.array elems loc) (seg :: rest) = none) ∧
    (∀ (loc : SourceLocation) (elems : List DataNode) (seg : String)
        (rest : List String) (i : Int),
      parseIntJS seg = some i → (i < 0 ∨ (elems.length : Int) ≤ i) →
      traverseLoop (.array elems loc) (seg :: rest) = none) ∧
    (∀ (loc : SourceLocation) (seg : String) (rest : List String)
        (v : String) (raw : Option String) (n : Int) (b : Bool),
      traverseLoop (.string v raw loc) (seg :: rest) = none ∧
      traverseLoop (.number n raw loc) (seg :: rest) = none ∧
      traverseLoop (.boolean b loc) (seg :: rest) = none ∧
      traverseLoop (.null loc) (seg :: rest) = none) ∧
    (∀ (root : DocumentNode) (ptr : String) (segs : List String),
      ptr ≠ "" → parsePointer ptr = .ok segs →
      getByPointer root ptr = traverseLoop root.body segs) := by
  refine ⟨?_, ?_, ?_, ?_, ?_, ?_, ?_⟩
  · intro loc pre prop post rest hpre
    have hfind : List.find? (fun p => p.key.value == prop.key.value)
        (pre ++ prop :: post) = some prop := by
      refine find?_append_first _ pre prop post ?_ ?_
      · intro q hq
        exact beq_eq_false_iff_ne.mpr (hpre q hq)
      · exact beq_self_eq_true _
    simp only [traverseLoop, hfind]
  · intro loc props seg rest hmiss
    have hfind : List.find? (fun p => p.key.value == seg) props = none := by
      rw [List.find?_eq_none]
      intro q hq
      simp only [beq_iff_eq]
      exact hmiss q hq
    simp only [traverseLoop, hfind]
  · intro loc elems seg rest i h hseg
    simp only [traverseLoop, hseg]
    rw [dif_neg (by omega)]
    have : ((i : Int)).toNat = i := Int.toNat_natCast i
    congr 1
  · intro loc elems seg rest hseg
    simp only [traverseLoop, hseg]
  · intro loc elems seg rest i hseg hcond
    simp only [traverseLoop, hseg]
    rw [dif_pos hcond]
  · intro loc seg rest v raw n b
    exact ⟨rfl, rfl, rfl, rfl⟩
  · intro root ptr segs hne hok
    unfold getByPointer traversePath
    rw [if_neg hne, hok]

/-- C10: `getByPointer` never raises.  The empty pointer returns the
document body, and a syntactically invalid pointer — non-empty and not
starting with `/` — makes `parsePointer` raise `InvalidPath`, which
`getByPointer` converts into not-found (`undefined`) instead of
propagating. -/
theorem getByPointer_no_throw (root : DocumentNode) (ptr : String) :
    (ptr = "" → getByPointer root ptr = some root.body) ∧
    (ptr ≠ "" → ptr.toList.head? ≠ some '/' →
      (∃ e, parsePointer ptr = .error e) ∧ getByPointer root ptr = none) := by
  constructor
  · intro h
    subst h
    rfl
  · intro hne hhead
    cases hl : ptr.toList with
    | nil =>
      exact absurd (by rw [← string_mk_toList ptr, hl]) hne
    | cons c rest =>
      have hc : c ≠ '/' := by
        intro h
        subst h
        rw [hl] at hhead
        exact hhead rfl
      have herr : parsePointer ptr = .error ("Invalid JSON pointer: " ++ ptr) := by
        unfold parsePointer
        rw [hl]
        split <;> simp_all
      have htrav : traversePath root.body ptr =
          .error ("Invalid JSON pointer: " ++ ptr) := by
        unfold traversePath
        rw [herr]
      refine ⟨⟨_, herr⟩, ?_⟩
      unfold getByPointer
      rw [if_neg hne, htrav]

/-! ## Diff engine (`diff.ts`) -/

/-- Changes between two AST versions (`ASTDiff` in `diff.ts`).  The
JavaScript `Set`s are modelled as insertion-ordered lists. -/
structure ASTDiff where
  added : List String
  removed : List String
  modified : List String
  unchanged : List String

/-- JavaScript `Map.get`: the value stored under `k`, if any. -/
def mapGet (m : List (String × String)) (k : String) : Option String :=
  (m.find? (fun e => e.1 == k)).map (fun e => e.2)

/-- JavaScript `Map.set`: overwrite in place if the key is present,
otherwise append (insertion order preserved). -/
def mapSet (m : List (String × String)) (k v : String) : List (String × String) :=
  if m.any (fun e => e.1 == k) then
    m.map (fun e => if e.1 == k then (k, v) else e)
  else m ++ [(k, v)]

/-- JavaScript `Map.keys()`, in insertion order. -/
def mapKeys (m : List (String × String)) : List String :=
  m.map (fun e => e.1)

/-- Build a `path -> contentHash` map from walk entries, later entries
overwriting earlier ones (repeated `Map.set`). -/
def buildMap (entries : List (String × String)) : List (String × String) :=
  entries.foldl (fun m e => mapSet m e.1 e.2) []

/-- JavaScript `Set.add`: append unless already present. -/
def addSet (l : List String) (x : String) : List String :=
  if x ∈ l then l else l ++ [x]

/-- JavaScript `new Set(list)`: de-duplicate keeping first occurrences. -/
def dedupKeys (l : List String) : List String :=
  l.foldl addSet []

mutual
/-- The `(pointer, contentHash)` entries produced for a subtree by the
depth-first walk of `computeIdentities` in `identity.ts` (and re-traversed
when `diffASTs` builds its `path -> contentHash` maps): the node itself,
then its children; object children under `pointer/escapedKey`, array
children under `pointer/index`. -/
def collectEntries (n : DataNode) (ptr : String) : List (String × String) :=
  (ptr, hashNode n) ::
  (match n with
   | .object props _ => collectProps props ptr
   | .array elems _ => collectElems elems ptr 0
   | _ => [])

/-- Entries contributed by an object's properties. -/
def collectProps : List PropertyNode → String → List (String × String)
  | [], _ => []
  | .mk k v _ :: rest, ptr =>
      collectEntries v (ptr ++ "/" ++ escapePointer k.value) ++ collectProps rest ptr

/-- Entries contributed by an array's elements, numbering from `i`. -/
def collectElems : List DataNode → String → Nat → List (String × String)
  | [], _, _ => []
  | e :: rest, ptr, i =>
      collectEntries e (ptr ++ "/" ++ toString i) ++ collectElems rest ptr (i + 1)
end

/-- The `path -> contentHash` map of one document, as built by `diffASTs`
from the identity index. -/
def identityMap (doc : DocumentNode) : List (String × String) :=
  buildMap (collectEntries doc.body "")

/-- JavaScript falsiness of an optional string (`!oldHash` in `diffASTs`):
`undefined` and the empty string are falsy. -/
def falsyHash : Option String → Bool
  | none => true
  | some s => s == ""

/-- The classification loop of `diffASTs`: each path goes to exactly one of
the four sets according to its presence and hashes in the two maps. -/
def classifyPaths (oldMap newMap : List (String × String)) :
    List String → ASTDiff
  | [] => ⟨[], [], [], []⟩
  | p :: rest =>
    let d := classifyPaths oldMap newMap rest
    let oldHash := mapGet oldMap p
    let newHash := mapGet newMap p
    if falsyHash oldHash then { d with added := p :: d.added }
    else if falsyHash newHash then { d with removed := p :: d.removed }
    else if oldHash ≠ newHash then { d with modified := p :: d.modified }
    else { d with unchanged := p :: d.unchanged }

/-- `diffASTs` from `diff.ts`: `null` (fast path) when the root content
hashes agree, otherwise the four-way classification of all paths present in
either tree's map. -/
def diffASTs (oldAst newAst : DocumentNode) : Option ASTDiff :=
  let oldRootHash := hashNode oldAst.body
  let newRootHash := hashNode newAst.body
  if oldRootHash = newRootHash then none
  else
    let oldMap := identityMap oldAst
    let newMap := identityMap newAst
    let allPaths := dedupKeys (mapKeys oldMap ++ mapKeys newMap)
    some (classifyPaths oldMap newMap allPaths)

/-- `areIdentical` from `diff.ts`: `diffASTs(a, b) === null`. -/
def areIdentical (a b : DocumentNode) : Bool :=
  (diffASTs a b).isNone

/-- C5: the diff fast path.  `diffASTs` returns `null` exactly when the
content hashes of the two bodies agree; in particular `diff(T, T) == null`
for every tree `T`, and `areIdentical(a, b)` holds iff `diff(a, b)` is
`null`. -/
theorem diffASTs_fast_path :
    (∀ o n : DocumentNode, diffASTs o n = none ↔ hashNode o.body = hashNode n.body) ∧
    (∀ T : DocumentNode, diffASTs T T = none) ∧
    (∀ a b : DocumentNode, areIdentical a b = true ↔ diffASTs a b = none) := by
  refine ⟨?_, ?_, ?_⟩
  · intro o n
    unfold diffASTs
    by_cases h : hashNode o.body = hashNode n.body
    · simp [h]
    · simp [h]
  · intro T
    unfold diffASTs
    simp
  · intro a b
    unfold areIdentical
    exact Option.isNone_iff_eq_none

theorem hashSemantic_ne_empty (s : SemanticNode) : hashSemantic s ≠ "" := by
  cases s with
  | boolean b => cases b <;> decide
  | null => decide
  | string v =>
    intro h
    rw [show hashSemantic (.string v) = "S" ++ toString v.length ++ ":" ++ v from rfl] at h
    have h2 := congrArg String.length h
    simp [String.length_append] at h2
    exact absurd h2.1.1.1 (by decide)
  | number v =>
    intro h
    rw [show hashSemantic (.number v) = "N" ++ toString v ++ ";" from rfl] at h
    have h2 := congrArg String.length h
    simp [String.length_append] at h2
    exact absurd h2.1.1 (by decide)
  | object ps =>
    intro h
    rw [show hashSemantic (.object ps) =
      "O" ++ toString ps.length ++ ":" ++ hashSemanticProps ps from rfl] at h
    have h2 := congrArg String.length h
    simp [String.length_append] at h2
    exact absurd h2.1.1.1 (by decide)
  | array es =>
    intro h
    rw [show hashSemantic (.array es) =
      "A" ++ toString es.length ++ ":" ++ hashSemanticElems es from rfl] at h
    have h2 := congrArg String.length h
    simp [String.length_append] at h2
    exact absurd h2.1.1.1 (by decide)

mutual
theorem collectEntries_values (n : DataNode) (ptr : String) :
    ∀ x ∈ collectEntries n ptr, ∃ s, x.2 = hashSemantic s := by
  intro x hx
  unfold collectEntries at hx
  rcases List.mem_cons.mp hx with h | h
  · exact ⟨toSemantic n, by subst h; rfl⟩
  · cases n with
    | object props loc => exact collectProps_values props ptr x h
    | array elems loc => exact collectElems_values elems ptr 0 x h
    | string v r loc => simp at h
    | number v r loc => simp at h
    | boolean v loc => simp at h
    | null loc => simp at h

theorem collectProps_values (props : List PropertyNode) (ptr : String) :
    ∀ x ∈ collectProps props ptr, ∃ s, x.2 = hashSemantic s := by
  intro x hx
  match props with
  | [] => simp [collectProps] at hx
  | .mk k v l :: rest =>
    unfold collectProps at hx
    rcases List.mem_append.mp hx with h | h
    · exact collectEntries_values v _ x h
    · exact collectProps_values rest ptr x h

theorem collectElems_values (elems : List DataNode) (ptr : String) (i : Nat) :
    ∀ x ∈ collectElems elems ptr i, ∃ s, x.2 = hashSemantic s := by
  intro x hx
  match elems with
  | [] => simp [collectElems] at hx
  | e :: rest =>
    unfold collectElems at hx
    rcases List.mem_append.mp hx with h | h
    · exact collectEntries_values e _ x h
    · exact collectElems_values rest ptr (i + 1) x h
end

theorem mapGet_eq_none_iff (m : List (String × String)) (k : String) :
    mapGet m k = none ↔ k ∉ mapKeys m := by
  unfold mapGet mapKeys
  rw [Option.map_eq_none', List.find?_eq_none]
  constructor
  · intro h hk
    rcases List.mem_map.mp hk with ⟨e, he, hek⟩
    exact (h e he) (beq_iff_eq.mpr hek)
  · intro h e he
    simp only [beq_iff_eq]
    intro hek
    exact h (List.mem_map.mpr ⟨e, he, hek⟩)

theorem mem_mapKeys_iff (m : List (String × String)) (k : String) :
    k ∈ mapKeys m ↔ ∃ v, mapGet m k = some v := by
  constructor
  · intro hk
    cases hv : mapGet m k with
    | none => exact absurd hk ((mapGet_eq_none_iff m k).mp hv)
    | some v => exact ⟨v, rfl⟩
  · rintro ⟨v, hv⟩
    by_contra hk
    rw [(mapGet_eq_none_iff m k).mpr hk] at hv
    exact Option.noConfusion hv

theorem mapGet_mem (m : List (String × String)) (k v : String)
    (h : mapGet m k = some v) : (k, v) ∈ m := by
  unfold mapGet at h
  cases hf : m.find? (fun e => e.1 == k) with
  | none => rw [hf] at h; exact Option.noConfusion h
  | some e =>
    rw [hf] at h
    have hpe := List.find?_some (p := fun e : String × String => e.1 == k) hf
    have he1 : e.1 = k := beq_iff_eq.mp hpe
    have hem : e ∈ m := List.mem_of_find?_eq_some hf
    simp only [Option.map_some', Option.some.injEq] at h
    have : e = (k, v) := by
      cases e
      simp only [Prod.mk.injEq]
      exact ⟨he1, h⟩
    rw [← this]
    exact hem

theorem mapSet_values {P : String → Prop} (m : List (String × String)) (k v : String)
    (hm : ∀ e ∈ m, P e.2) (hv : P v) : ∀ e ∈ mapSet m k v, P e.2 := by
  intro e he
  unfold mapSet at he
  split at he
  · rcases List.mem_map.mp he with ⟨e0, he0, heq⟩
    by_cases h0 : (e0.1 == k) = true
    · rw [if_pos h0] at heq
      rw [← heq]
      exact hv
    · rw [if_neg h0] at heq
      rw [← heq]
      exact hm e0 he0
  · rcases List.mem_append.mp he with h | h
    · exact hm e h
    · rw [List.mem_singleton.mp h]
      exact hv

theorem buildMap_values {P : String → Prop} :
    ∀ (entries init : List (String × String)),
    (∀ e ∈ init, P e.2) → (∀ x ∈ entries, P x.2) →
    ∀ e ∈ entries.foldl (fun m x => mapSet m x.1 x.2) init, P e.2 := by
  intro entries
  induction entries with
  | nil =>
    intro init hi _ e he
    exact hi e he
  | cons x rest ih =>
    intro init hi hent e he
    simp only [List.foldl_cons] at he
    exact ih (mapSet init x.1 x.2)
      (mapSet_values init x.1 x.2 hi (hent x (List.mem_cons_self x rest)))
      (fun y hy => hent y (List.mem_cons_of_mem x hy)) e he

theorem identityMap_values (doc : DocumentNode) :
    ∀ e ∈ identityMap doc, e.2 ≠ "" := by
  intro e he
  have hv := buildMap_values (P := fun v => ∃ s, v = hashSemantic s)
    (collectEntries doc.body "") []
    (by intro e h; exact absurd h (List.not_mem_nil e))
    (collectEntries_values doc.body "") e he
  rcases hv with ⟨s, hs⟩
  rw [hs]
  exact hashSemantic_ne_empty s

theorem falsyHash_identityMap (doc : DocumentNode) (p : String) :
    falsyHash (mapGet (identityMap doc) p) = true ↔
      p ∉ mapKeys (identityMap doc) := by
  cases hv : mapGet (identityMap doc) p with
  | none =>
    constructor
    · intro _
      exact (mapGet_eq_none_iff _ p).mp hv
    · intro _
      rfl
  | some v =>
    have hne : v ≠ "" := identityMap_values doc (p, v) (mapGet_mem _ p v hv)
    have hmem : p ∈ mapKeys (identityMap doc) := (mem_mapKeys_iff _ p).mpr ⟨v, hv⟩
    simp only [falsyHash]
    constructor
    · intro hf
      exact absurd (beq_iff_eq.mp hf) hne
    · intro hnm
      exact absurd hmem hnm

theorem mem_addSet (l : List String) (x y : String) :
    y ∈ addSet l x ↔ y ∈ l ∨ y = x := by
  unfold addSet
  split
  · rename_i hx
    constructor
    · exact Or.inl
    · rintro (h | h)
      · exact h
      · rw [h]; exact hx
  · simp [List.mem_append]

theorem mem_foldl_addSet (l : List String) :
    ∀ (init : List String) (y : String),
    y ∈ l.foldl addSet init ↔ y ∈ init ∨ y ∈ l := by
  induction l with
  | nil => simp
  | cons x rest ih =>
    intro init y
    simp only [List.foldl_cons]
    rw [ih, mem_addSet]
    simp only [List.mem_cons]
    tauto

theorem mem_dedupKeys (l : List String) (y : String) :
    y ∈ dedupKeys l ↔ y ∈ l := by
  unfold dedupKeys
  rw [mem_foldl_addSet]
  simp

theorem classifyPaths_mem (oldMap newMap : List (String × String))
    (paths : List String) (p : String) :
    (p ∈ (classifyPaths oldMap newMap paths).added ↔
      p ∈ paths ∧ falsyHash (mapGet oldMap p) = true) ∧
    (p ∈ (classifyPaths oldMap newMap paths).removed ↔
      p ∈ paths ∧ falsyHash (mapGet oldMap p) = false ∧
        falsyHash (mapGet newMap p) = true) ∧
    (p ∈ (classifyPaths oldMap newMap paths).modified ↔
      p ∈ paths ∧ falsyHash (mapGet oldMap p) = false ∧
        falsyHash (mapGet newMap p) = false ∧ mapGet oldMap p ≠ mapGet newMap p) ∧
    (p ∈ (classifyPaths oldMap newMap paths).unchanged ↔
      p ∈ paths ∧ falsyHash (mapGet oldMap p) = false ∧
        falsyHash (mapGet newMap p) = false ∧ mapGet oldMap p = mapGet newMap p) := by
  induction paths with
  | nil => simp [classifyPaths]
  | cons q rest ih =>
    obtain ⟨ih1, ih2, ih3, ih4⟩ := ih
    by_cases h1 : falsyHash (mapGet oldMap q) = true
    · have hstep : classifyPaths oldMap newMap (q :: rest) =
        { classifyPaths oldMap newMap rest with
          added := q :: (classifyPaths oldMap newMap rest).added } := by
        conv_lhs => unfold classifyPaths
        simp only [if_pos h1]
      rw [hstep]
      refine ⟨?_, ?_, ?_, ?_⟩ <;>
        simp only [List.mem_cons, ih1, ih2, ih3, ih4] <;>
        by_cases hpq : p = q <;>
        simp_all
    · by_cases h2 : falsyHash (mapGet newMap q) = true
      · have hstep : classifyPaths oldMap newMap (q :: rest) =
          { classifyPaths oldMap newMap rest with
            removed := q :: (classifyPaths oldMap newMap rest).removed } := by
          conv_lhs => unfold classifyPaths
          simp only [if_neg h1, if_pos h2]
        rw [hstep]
        refine ⟨?_, ?_, ?_, ?_⟩ <;>
          simp only [List.mem_cons, ih1, ih2, ih3, ih4] <;>
          by_cases hpq : p = q <;>
          simp_all
      · by_cases h3 : mapGet oldMap q ≠ mapGet newMap q
        · have hstep : classifyPaths oldMap newMap (q :: rest) =
            { classifyPaths oldMap newMap rest with
              modified := q :: (classifyPaths oldMap newMap rest).modified } := by
            conv_lhs => unfold classifyPaths
            simp only [if_neg h1, if_neg h2, if_pos h3]
          rw [hstep]
          refine ⟨?_, ?_, ?_, ?_⟩ <;>
            simp only [List.mem_cons, ih1, ih2, ih3, ih4] <;>
            by_cases hpq : p = q <;>
            simp_all
        · have hstep : classifyPaths oldMap newMap (q :: rest) =
            { classifyPaths oldMap newMap rest with
              unchanged := q :: (classifyPaths oldMap newMap rest).unchanged } := by
            conv_lhs => unfold classifyPaths
            simp only [if_neg h1, if_neg h2, if_neg h3]
          rw [hstep]
          refine ⟨?_, ?_, ?_, ?_⟩ <;>
            simp only [List.mem_cons, ih1, ih2, ih3, ih4] <;>
            by_cases hpq : p = q <;>
            simp_all

/-- C2: diff completeness and classification.  Whenever `diffASTs` returns
a non-null diff, each path present only in the new tree is in `added`, each
present only in the old tree is in `removed`, each present in both with
differing content hashes is in `modified`, each present in both with equal
hashes is in `unchanged`; the union of the four sets is exactly the set of
paths present in either tree's identity index, and the four sets are
pairwise disjoint. -/
theorem diffASTs_complete (o n : DocumentNode) (d : ASTDiff)
    (h : diffASTs o n = some d) :
    (∀ p, p ∈ d.added ↔
      p ∈ mapKeys (identityMap n) ∧ p ∉ mapKeys (identityMap o)) ∧
    (∀ p, p ∈ d.removed ↔
      p ∈ mapKeys (identityMap o) ∧ p ∉ mapKeys (identityMap n)) ∧
    (∀ p, p ∈ d.modified ↔ ∃ h1 h2, mapGet (identityMap o) p = some h1 ∧
      mapGet (identityMap n) p = some h2 ∧ h1 ≠ h2) ∧
    (∀ p, p ∈ d.unchanged ↔ ∃ h0, mapGet (identityMap o) p = some h0 ∧
      mapGet (identityMap n) p = some h0) ∧
    (∀ p, (p ∈ d.added ∨ p ∈ d.removed ∨ p ∈ d.modified ∨ p ∈ d.unchanged) ↔
      (p ∈ mapKeys (identityMap o) ∨ p ∈ mapKeys (identityMap n))) ∧
    (∀ p, ¬(p ∈ d.added ∧ p ∈ d.removed)) ∧
    (∀ p, ¬(p ∈ d.added ∧ p ∈ d.modified)) ∧
    (∀ p, ¬(p ∈ d.added ∧ p ∈ d.unchanged)) ∧
    (∀ p, ¬(p ∈ d.removed ∧ p ∈ d.modified)) ∧
    (∀ p, ¬(p ∈ d.removed ∧ p ∈ d.unchanged)) ∧
    (∀ p, ¬(p ∈ d.modified ∧ p ∈ d.unchanged)) := by
  have hd : d = classifyPaths (identityMap o) (identityMap n)
      (dedupKeys (mapKeys (identityMap o) ++ mapKeys (identityMap n))) := by
    simp only [diffASTs] at h
    split at h
    · exact absurd h (by simp)
    · exact (Option.some.inj h).symm
  subst hd
  have hc := fun p => classifyPaths_mem (identityMap o) (identityMap n)
    (dedupKeys (mapKeys (identityMap o) ++ mapKeys (identityMap n))) p
  have hmemall : ∀ p, p ∈ dedupKeys (mapKeys (identityMap o) ++ mapKeys (identityMap n)) ↔
      p ∈ mapKeys (identityMap o) ∨ p ∈ mapKeys (identityMap n) := by
    intro p
    rw [mem_dedupKeys, List.mem_append]
  have hfo : ∀ p, falsyHash (mapGet (identityMap o) p) = true ↔
      p ∉ mapKeys (identityMap o) := fun p => falsyHash_identityMap o p
  have hfn : ∀ p, falsyHash (mapGet (identityMap n) p) = true ↔
      p ∉ mapKeys (identityMap n) := fun p => falsyHash_identityMap n p
  have hfo2 : ∀ p, falsyHash (mapGet (identityMap o) p) = false ↔
      p ∈ mapKeys (identityMap o) := by
    intro p
    rw [Bool.eq_false_iff]
    constructor
    · intro hne
      by_contra hmem
      exact hne ((hfo p).mpr hmem)
    · intro hmem hne
      exact (hfo p).mp hne hmem
  have hfn2 : ∀ p, falsyHash (mapGet (identityMap n) p) = false ↔
      p ∈ mapKeys (identityMap n) := by
    intro p
    rw [Bool.eq_false_iff]
    constructor
    · intro hne
      by_contra hmem
      exact hne ((hfn p).mpr hmem)
    · intro hmem hne
      exact (hfn p).mp hne hmem
  refine ⟨?_, ?_, ?_, ?_, ?_, ?_, ?_, ?_, ?_, ?_, ?_⟩
  · intro p
    rw [(hc p).1, hmemall p, hfo p]
    tauto
  · intro p
    rw [(hc p).2.1, hmemall p, hfo2 p, hfn p]
    tauto
  · intro p
    rw [(hc p).2.2.1, hmemall p, hfo2 p, hfn2 p]
    constructor
    · rintro ⟨hall, ho, hn, hne⟩
      rcases (mem_mapKeys_iff _ p).mp ho with ⟨v1, hv1⟩
      rcases (mem_mapKeys_iff _ p).mp hn with ⟨v2, hv2⟩
      refine ⟨v1, v2, hv1, hv2, ?_⟩
      intro he
      subst he
      exact hne (hv1.trans hv2.symm)
    · rintro ⟨v1, v2, hv1, hv2, hne⟩
      have hmo : p ∈ mapKeys (identityMap o) := (mem_mapKeys_iff _ p).mpr ⟨v1, hv1⟩
      have hmn : p ∈ mapKeys (identityMap n) := (mem_mapKeys_iff _ p).mpr ⟨v2, hv2⟩
      refine ⟨Or.inl hmo, hmo, hmn, ?_⟩
      rw [hv1, hv2]
      intro he
      exact hne (Option.some.inj he)
  · intro p
    rw [(hc p).2.2.2, hmemall p, hfo2 p, hfn2 p]
    constructor
    · rintro ⟨hall, ho, hn, heq⟩
      rcases (mem_mapKeys_iff _ p).mp ho with ⟨v1, hv1⟩
      refine ⟨v1, hv1, ?_⟩
      rw [← heq]
      exact hv1
    · rintro ⟨v0, hv1, hv2⟩
      have hmo : p ∈ mapKeys (identityMap o) := (mem_mapKeys_iff _ p).mpr ⟨v0, hv1⟩
      have hmn : p ∈ mapKeys (identityMap n) := (mem_mapKeys_iff _ p).mpr ⟨v0, hv2⟩
      exact ⟨Or.inl hmo, hmo, hmn, hv1.trans hv2.symm⟩
  · intro p
    rw [(hc p).1, (hc p).2.1, (hc p).2.2.1, (hc p).2.2.2, hmemall p]
    constructor
    · rintro (⟨h0, _⟩ | ⟨h0, _⟩ | ⟨h0, _⟩ | ⟨h0, _⟩) <;> exact h0
    · intro hmem
      by_cases ho : falsyHash (mapGet (identityMap o) p) = true
      · exact Or.inl ⟨hmem, ho⟩
      · have ho2 := Bool.eq_false_iff.mpr ho
        by_cases hn : falsyHash (mapGet (identityMap n) p) = true
        · exact Or.inr (Or.inl ⟨hmem, ho2, hn⟩)
        · have hn2 := Bool.eq_false_iff.mpr hn
          by_cases heq : mapGet (identityMap o) p = mapGet (identityMap n) p
          · exact Or.inr (Or.inr (Or.inr ⟨hmem, ho2, hn2, heq⟩))
          · exact Or.inr (Or.inr (Or.inl ⟨hmem, ho2, hn2, heq⟩))
  · intro p
    rw [(hc p).1, (hc p).2.1]
    rintro ⟨⟨_, ha⟩, _, hr, _⟩
    exact absurd (ha.symm.trans hr) (by decide)
  · intro p
    rw [(hc p).1, (hc p).2.2.1]
    rintro ⟨⟨_, ha⟩, _, hr, _⟩
    exact absurd (ha.symm.trans hr) (by decide)
  · intro p
    rw [(hc p).1, (hc p).2.2.2]
    rintro ⟨⟨_, ha⟩, _, hr, _⟩
    exact absurd (ha.symm.trans hr) (by decide)
  · intro p
    rw [(hc p).2.1, (hc p).2.2.1]
    rintro ⟨⟨_, _, ha⟩, _, _, hr, _⟩
    exact absurd (ha.symm.trans hr) (by decide)
  · intro p
    rw [(hc p).2.1, (hc p).2.2.2]
    rintro ⟨⟨_, _, ha⟩, _, _, hr, _⟩
    exact absurd (ha.symm.trans hr) (by decide)
  · intro p
    rw [(hc p).2.2.1, (hc p).2.2.2]
    rintro ⟨⟨_, _, _, hne⟩, _, _, _, heq⟩
    exact hne heq

/-- A sample source location used in concrete test nodes. -/
def loc0 : SourceLocation := ⟨⟨1, 0, 0⟩, ⟨1, 0, 0⟩, none⟩

/-- A second, different sample source location. -/
def loc1 : SourceLocation := ⟨⟨2, 3, 10⟩, ⟨2, 8, 15⟩, some "json"⟩

/-- Shorthand for a number node at `loc0`. -/
def numN (v : Int) : DataNode := .number v none loc0

/-- Shorthand for a property node at `loc0`. -/
def propN (k : String) (v : DataNode) : PropertyNode :=
  .mk ⟨k, none, loc0⟩ v loc0

/-- C8: the content hash discriminates node types and is sensitive to array
element order, object property order, and property key names and values:
a String node holding "42" hashes differently from a Number node holding 42;
two arrays with the same elements in different order hash differently; two
objects with the same key/value pairs in different order hash differently;
and changing a key name or a property value changes the hash. -/
theorem hashNode_discrimination :
    hashNode (.string "42" none loc0) ≠ hashNode (numN 42) ∧
    hashNode (.array [numN 1, numN 2] loc0) ≠ hashNode (.array [numN 2, numN 1] loc0) ∧
    hashNode (.object [propN "a" (numN 1), propN "b" (numN 2)] loc0) ≠
      hashNode (.object [propN "b" (numN 2), propN "a" (numN 1)] loc0) ∧
    hashNode (.object [propN "a" (numN 1)] loc0) ≠
      hashNode (.object [propN "b" (numN 1)] loc0) ∧
    hashNode (.object [propN "a" (numN 1)] loc0) ≠
      hashNode (.object [propN "a" (numN 2)] loc0) := by
  refine ⟨?_, ?_, ?_, ?_, ?_⟩ <;> decide

def docA : DocumentNode := ⟨.object [propN "a" (numN 1)] loc0, loc0⟩
def docB : DocumentNode := ⟨.object [propN "a" (numN 2)] loc1, loc1⟩
def diffAB : ASTDiff := ⟨[], [], ["", "/a"], []⟩

theorem diffASTs_complete_witness : "/a" ∈ diffAB.modified ∧ "/a" ∉ diffAB.added :=
  have h := diffASTs_complete docA docB diffAB rfl
  ⟨(h.2.2.1 "/a").mpr ⟨hashNode (numN 1), hashNode (numN 2), rfl, rfl, by decide⟩,
   fun hmem => absurd ⟨hmem, (h.2.2.1 "/a").mpr
     ⟨hashNode (numN 1), hashNode (numN 2), rfl, rfl, by decide⟩⟩ (h.2.2.2.2.2.2.1 "/a")⟩

/-! ## Validation cache (`cache.ts`) -/

/-- Source range of a validation error (start and end positions). -/
structure SourceRange where
  start : Position
  endPos : Position
deriving DecidableEq

/-- Modelled from the spec: `ValidationError` of `validation/src/types.ts`,
absent from the sources; shape taken from the validation cache tests. -/
structure ValidationError where
  path : String
  message : String
  keyword : String
  schemaPath : String
  location : SourceRange
deriving DecidableEq

/-- Modelled from the spec: `ValidationResult` of `validation/src/types.ts`,
absent from the sources; shape taken from the validation cache tests. -/
structure ValidationResult where
  valid : Bool
  errors : List ValidationError
deriving DecidableEq

/-- `ValidationCache` state: the insertion-ordered JavaScript `Map` plus the
`maxSize` bound fixed at construction. -/
structure ValidationCache where
  cache : List (String × ValidationResult)
  maxSize : Nat

/-- `new ValidationCache(maxSize)`: an empty map (the source default for
`maxSize` is 1000). -/
def ValidationCache.empty (maxSize : Nat) : ValidationCache :=
  ⟨[], maxSize⟩

/-- `makeKey` from `cache.ts`: the combined key `pointer + "@" + hash`. -/
def ValidationCache.makeKey (ptr contentHash : String) : String :=
  ptr ++ "@" ++ contentHash

/-- JavaScript `Map.set` for the cache map: overwrite in place if the key is
present, otherwise append. -/
def jsSetV (m : List (String × ValidationResult)) (k : String)
    (v : ValidationResult) : List (String × ValidationResult) :=
  if m.any (fun e => e.1 == k) then
    m.map (fun e => if e.1 == k then (k, v) else e)
  else m ++ [(k, v)]

/-- `ValidationCache.get`: look up the combined key; `undefined` on miss. -/
def ValidationCache.get (c : ValidationCache) (ptr contentHash : String) :
    Option ValidationResult :=
  (c.cache.find? (fun e => e.1 == ValidationCache.makeKey ptr contentHash)).map
    (fun e => e.2)

/-- `ValidationCache.set`: if the cache is at `maxSize` and the key is new,
delete the first (oldest-inserted) entry, then store under the key. -/
def ValidationCache.set (c : ValidationCache) (ptr contentHash : String)
    (result : ValidationResult) : ValidationCache :=
  let key := ValidationCache.makeKey ptr contentHash
  let cache1 :=
    if c.maxSize ≤ c.cache.length ∧ ¬c.cache.any (fun e => e.1 == key) = true then
      match c.cache with
      | [] => []
      | _ :: rest => rest
    else c.cache
  { c with cache := jsSetV cache1 key result }

/-- `ValidationCache.clear`: empty the map. -/
def ValidationCache.clear (c : ValidationCache) : ValidationCache :=
  { c with cache := [] }

/-- `ValidationCache.size`: current entry count. -/
def ValidationCache.size (c : ValidationCache) : Nat :=
  c.cache.length

/-- One public cache operation (`get` does not mutate the state). -/
inductive CacheOp where
  | set (ptr contentHash : String) (result : ValidationResult)
  | get (ptr contentHash : String)
  | clear

/-- State transition of one cache operation. -/
def applyOp (c : ValidationCache) : CacheOp → ValidationCache
  | .set p h v => c.set p h v
  | .get _ _ => c
  | .clear => c.clear

/-- State after a sequence of cache operations. -/
def applyOps (c : ValidationCache) (ops : List CacheOp) : ValidationCache :=
  ops.foldl applyOp c

/-- A sequence of `set` calls. -/
def setAll (c : ValidationCache) (items : List (String × String × ValidationResult)) :
    ValidationCache :=
  items.foldl (fun acc it => acc.set it.1 it.2.1 it.2.2) c

theorem makeKey_hash_inj (p h h2 : String)
    (he : ValidationCache.makeKey p h = ValidationCache.makeKey p h2) : h = h2 := by
  have hd : (p ++ "@").data ++ h.data = (p ++ "@").data ++ h2.data :=
    congrArg String.data he
  have := List.append_cancel_left hd
  exact String.ext this

theorem makeKey_ptr_inj (p p2 h : String)
    (he : ValidationCache.makeKey p h = ValidationCache.makeKey p2 h) : p = p2 := by
  have hd : (p.data ++ ['@']) ++ h.data = (p2.data ++ ['@']) ++ h.data :=
    congrArg String.data he
  have h2 := List.append_cancel_right hd
  have h3 := List.append_cancel_right h2
  exact String.ext h3

theorem set_maxSize (c : ValidationCache) (p h : String) (v : ValidationResult) :
    (c.set p h v).maxSize = c.maxSize := rfl

theorem set_cache_existing (c : ValidationCache) (p h : String) (v : ValidationResult)
    (hhas : c.cache.any (fun e => e.1 == ValidationCache.makeKey p h) = true) :
    (c.set p h v).cache = c.cache.map (fun e =>
      if e.1 == ValidationCache.makeKey p h
      then (ValidationCache.makeKey p h, v) else e) := by
  have hc1 : (c.set p h v).cache =
      jsSetV c.cache (ValidationCache.makeKey p h) v := by
    simp only [ValidationCache.set]
    rw [if_neg (fun hand => hand.2 hhas)]
  rw [hc1]
  unfold jsSetV
  rw [if_pos hhas]

theorem set_cache_new_space (c : ValidationCache) (p h : String) (v : ValidationResult)
    (hhas : c.cache.any (fun e => e.1 == ValidationCache.makeKey p h) = false)
    (hlt : c.cache.length < c.maxSize) :
    (c.set p h v).cache = c.cache ++ [(ValidationCache.makeKey p h, v)] := by
  have hc1 : (c.set p h v).cache =
      jsSetV c.cache (ValidationCache.makeKey p h) v := by
    simp only [ValidationCache.set]
    rw [if_neg (fun hand => absurd hand.1 (by omega))]
  rw [hc1]
  unfold jsSetV
  rw [if_neg (by simp [hhas])]

theorem any_tail_eq_false (m : List (String × ValidationResult))
    (f : String × ValidationResult → Bool) (hm : m.any f = false) :
    m.tail.any f = false := by
  cases m with
  | nil => rfl
  | cons e rest =>
    rw [List.any_cons] at hm
    have h2 := (Bool.or_eq_false_iff.mp hm).2
    simpa [List.tail] using h2

theorem set_cache_new_full (c : ValidationCache) (p h : String) (v : ValidationResult)
    (hhas : c.cache.any (fun e => e.1 == ValidationCache.makeKey p h) = false)
    (hge : c.maxSize ≤ c.cache.length) :
    (c.set p h v).cache = c.cache.tail ++ [(ValidationCache.makeKey p h, v)] := by
  have htl : (match c.cache with
      | [] => ([] : List (String × ValidationResult))
      | _ :: rest => rest) = c.cache.tail := by
    cases c.cache <;> rfl
  have hc1 : (c.set p h v).cache =
      jsSetV c.cache.tail (ValidationCache.makeKey p h) v := by
    simp only [ValidationCache.set]
    rw [if_pos ⟨hge, fun hh => Bool.false_ne_true (hhas ▸ hh)⟩, htl]
  rw [hc1]
  unfold jsSetV
  rw [if_neg (by simp [any_tail_eq_false _ _ hhas])]

theorem find?_overwrite_self (m : List (String × ValidationResult)) (k : String)
    (v : ValidationResult) (hhas : m.any (fun e => e.1 == k) = true) :
    (m.map (fun e => if e.1 == k then (k, v) else e)).find?
      (fun e => e.1 == k) = some (k, v) := by
  induction m with
  | nil => simp at hhas
  | cons e rest ih =>
    by_cases he : (e.1 == k) = true
    · simp only [List.map_cons, if_pos he]
      rw [List.find?_cons_of_pos
        (p := fun e : String × ValidationResult => e.1 == k) _ (beq_self_eq_true k)]
    · simp only [List.map_cons, if_neg he]
      rw [List.find?_cons_of_neg _ (by simp [he])]
      apply ih
      rw [List.any_cons] at hhas
      rcases Bool.or_eq_true_iff.mp hhas with h | h
      · exact absurd h he
      · exact h

theorem find?_overwrite_other (m : List (String × ValidationResult)) (k : String)
    (v : ValidationResult) (k2 : String) (hne : k2 ≠ k) :
    (m.map (fun e => if e.1 == k then (k, v) else e)).find? (fun e => e.1 == k2) =
      m.find? (fun e => e.1 == k2) := by
  induction m with
  | nil => rfl
  | cons e rest ih =>
    by_cases he : (e.1 == k) = true
    · have he1 : e.1 = k := beq_iff_eq.mp he
      have hk2 : ((k : String) == k2) = false :=
        beq_eq_false_iff_ne.mpr (fun hh => hne hh.symm)
      have he2 : (e.1 == k2) = false := by rw [he1]; exact hk2
      simp only [List.map_cons, if_pos he]
      rw [List.find?_cons_of_neg _ (by simp [hk2]),
        List.find?_cons_of_neg _ (by simp [he2])]
      exact ih
    · simp only [List.map_cons, if_neg he]
      by_cases h2 : (e.1 == k2) = true
      · rw [List.find?_cons_of_pos
          (p := fun e : String × ValidationResult => e.1 == k2) _ h2,
          List.find?_cons_of_pos
          (p := fun e : String × ValidationResult => e.1 == k2) _ h2]
      · rw [List.find?_cons_of_neg _ (by simp [h2]),
          List.find?_cons_of_neg _ (by simp [h2])]
        exact ih

theorem setAll_fresh (items : List (String × String × ValidationResult)) :
    ∀ (c : ValidationCache),
    c.cache.length + items.length ≤ c.maxSize →
    (∀ it ∈ items,
      c.cache.any (fun e => e.1 == ValidationCache.makeKey it.1 it.2.1) = false) →
    (items.map (fun it => ValidationCache.makeKey it.1 it.2.1)).Nodup →
    (setAll c items).cache =
      c.cache ++ items.map (fun it => (ValidationCache.makeKey it.1 it.2.1, it.2.2)) ∧
    (setAll c items).maxSize = c.maxSize := by
  induction items with
  | nil =>
    intro c _ _ _
    simp [setAll]
  | cons it rest ih =>
    intro c hlen hfresh hnodup
    have hhas : c.cache.any
        (fun e => e.1 == ValidationCache.makeKey it.1 it.2.1) = false :=
      hfresh it (List.mem_cons_self it rest)
    have hlt : c.cache.length < c.maxSize := by
      simp only [List.length_cons] at hlen
      omega
    have hset : (c.set it.1 it.2.1 it.2.2).cache =
        c.cache ++ [(ValidationCache.makeKey it.1 it.2.1, it.2.2)] :=
      set_cache_new_space c it.1 it.2.1 it.2.2 hhas hlt
    have hkey : ValidationCache.makeKey it.1 it.2.1 ∉
        rest.map (fun it => ValidationCache.makeKey it.1 it.2.1) := by
      rw [List.map_cons, List.nodup_cons] at hnodup
      exact hnodup.1
    obtain ⟨ih1, ih2⟩ := ih (c.set it.1 it.2.1 it.2.2)
      (by
        rw [hset, set_maxSize]
        simp only [List.length_cons] at hlen
        simp [List.length_append]
        omega)
      (by
        intro it2 hit2
        rw [hset, List.any_append]
        rw [hfresh it2 (List.mem_cons_of_mem it hit2)]
        simp only [Bool.false_or, List.any_cons, List.any_nil, Bool.or_false]
        apply beq_eq_false_iff_ne.mpr
        intro hh
        exact hkey (hh ▸ List.mem_map_of_mem (fun it => ValidationCache.makeKey it.1 it.2.1) hit2)
      )
      (by
        rw [List.map_cons, List.nodup_cons] at hnodup
        exact hnodup.2)
    constructor
    · show (setAll (c.set it.1 it.2.1 it.2.2) rest).cache = _
      rw [ih1, hset]
      simp [List.append_assoc]
    · show (setAll (c.set it.1 it.2.1 it.2.2) rest).maxSize = _
      rw [ih2, set_maxSize]

/-- C6: the cache `set` contract with FIFO eviction.  Setting an existing
key overwrites in place without changing size, without evicting, and without
disturbing any other key; setting a new key when the cache holds `maxSize`
entries evicts exactly the oldest-inserted entry (the head of the
insertion-ordered map) before appending; and after `maxSize` distinct
insertions into a fresh cache, one more distinct insertion evicts exactly
the first-inserted entry and the size stays at `maxSize`. -/
theorem cache_set_contract :
    (∀ (c : ValidationCache) (p h : String) (v : ValidationResult),
      c.cache.any (fun e => e.1 == ValidationCache.makeKey p h) = true →
      (c.set p h v).size = c.size ∧
      (c.set p h v).get p h = some v ∧
      (∀ p2 h2, ValidationCache.makeKey p2 h2 ≠ ValidationCache.makeKey p h →
        (c.set p h v).get p2 h2 = c.get p2 h2)) ∧
    (∀ (c : ValidationCache) (p h : String) (v : ValidationResult),
      c.cache.any (fun e => e.1 == ValidationCache.makeKey p h) = false →
      c.cache.length = c.maxSize → 1 ≤ c.maxSize →
      (c.set p h v).cache = c.cache.tail ++ [(ValidationCache.makeKey p h, v)] ∧
      (c.set p h v).size = c.maxSize) ∧
    (∀ (m : Nat) (items : List (String × String × ValidationResult))
        (p h : String) (v : ValidationResult),
      1 ≤ m → items.length = m →
      (items.map (fun it => ValidationCache.makeKey it.1 it.2.1)).Nodup →
      (∀ it ∈ items,
        ValidationCache.makeKey it.1 it.2.1 ≠ ValidationCache.makeKey p h) →
      (setAll (ValidationCache.empty m) items).size = m ∧
      ((setAll (ValidationCache.empty m) items).set p h v).size = m ∧
      ((setAll (ValidationCache.empty m) items).set p h v).cache =
        (items.map (fun it => (ValidationCache.makeKey it.1 it.2.1, it.2.2))).tail ++
          [(ValidationCache.makeKey p h, v)]) := by
  refine ⟨?_, ?_, ?_⟩
  · intro c p h v hhas
    refine ⟨?_, ?_, ?_⟩
    · show (c.set p h v).cache.length = c.cache.length
      rw [set_cache_existing c p h v hhas]
      exact List.length_map _ _
    · unfold ValidationCache.get
      rw [set_cache_existing c p h v hhas, find?_overwrite_self c.cache _ v hhas]
      rfl
    · intro p2 h2 hne
      unfold ValidationCache.get
      rw [set_cache_existing c p h v hhas,
        find?_overwrite_other c.cache _ v _ hne]
  · intro c p h v hhas hlen hmax
    have hge : c.maxSize ≤ c.cache.length := hlen.ge
    refine ⟨set_cache_new_full c p h v hhas hge, ?_⟩
    show (c.set p h v).cache.length = c.maxSize
    rw [set_cache_new_full c p h v hhas hge]
    have hpos : 1 ≤ c.cache.length := by omega
    simp [List.length_append, List.length_tail]
    omega
  · intro m items p h v hm hlen hnodup hfresh
    obtain ⟨h1, h2⟩ := setAll_fresh items (ValidationCache.empty m)
      (by
        have he1 : (ValidationCache.empty m).cache.length = 0 := rfl
        have he2 : (ValidationCache.empty m).maxSize = m := rfl
        omega)
      (by intro it _; rfl)
      hnodup
    have hsize1 : (setAll (ValidationCache.empty m) items).size = m := by
      show (setAll (ValidationCache.empty m) items).cache.length = m
      rw [h1]
      simp [ValidationCache.empty, hlen]
    have hhas2 : (setAll (ValidationCache.empty m) items).cache.any
        (fun e => e.1 == ValidationCache.makeKey p h) = false := by
      rw [h1, show (ValidationCache.empty m).cache = [] from rfl,
        List.nil_append, List.any_eq_false]
      intro e he
      rcases List.mem_map.mp he with ⟨it, hit, rfl⟩
      intro hb
      exact hfresh it hit (beq_iff_eq.mp hb)
    have hge2 : (setAll (ValidationCache.empty m) items).maxSize ≤
        (setAll (ValidationCache.empty m) items).cache.length := by
      rw [h2]
      show m ≤ _
      have : (setAll (ValidationCache.empty m) items).cache.length = m := hsize1
      omega
    have hc2 := set_cache_new_full (setAll (ValidationCache.empty m) items)
      p h v hhas2 hge2
    refine ⟨hsize1, ?_, ?_⟩
    · show ((setAll (ValidationCache.empty m) items).set p h v).cache.length = m
      rw [hc2]
      have hl1 : (setAll (ValidationCache.empty m) items).cache.length = m := hsize1
      simp [List.length_append, List.length_tail]
      omega
    · rw [hc2, h1]
      simp [ValidationCache.empty]

/-- C7: cache lookup is an exact match on both key components.  After
storing under `(p, h)` in a fresh cache, `get p h` returns the stored value,
while any lookup differing in the hash or in the path alone is a miss, even
though the lookup key is the concatenation `path + "@" + contentHash`. -/
theorem cache_get_exact_match (m : Nat) (p h : String) (v : ValidationResult) :
    ((ValidationCache.empty m).set p h v).get p h = some v ∧
    (∀ h2, h2 ≠ h → ((ValidationCache.empty m).set p h v).get p h2 = none) ∧
    (∀ p2, p2 ≠ p → ((ValidationCache.empty m).set p h v).get p2 h = none) := by
  have hcache : ((ValidationCache.empty m).set p h v).cache =
      [(ValidationCache.makeKey p h, v)] := by
    unfold ValidationCache.set ValidationCache.empty jsSetV
    simp
  refine ⟨?_, ?_, ?_⟩
  · unfold ValidationCache.get
    rw [hcache, List.find?_cons_of_pos
      (p := fun e : String × ValidationResult => e.1 == ValidationCache.makeKey p h)
      _ (beq_self_eq_true _)]
    rfl
  · intro h2 hne
    unfold ValidationCache.get
    rw [hcache, List.find?_cons_of_neg _ ?_]
    · rfl
    · intro hb
      exact hne (makeKey_hash_inj p h h2 (beq_iff_eq.mp hb)).symm
  · intro p2 hne
    unfold ValidationCache.get
    rw [hcache, List.find?_cons_of_neg _ ?_]
    · rfl
    · intro hb
      exact hne (makeKey_ptr_inj p p2 h (beq_iff_eq.mp hb)).symm

theorem set_size_le (c : ValidationCache) (p h : String) (v : ValidationResult)
    (hmax : 1 ≤ c.maxSize) (hsz : c.size ≤ c.maxSize) :
    (c.set p h v).size ≤ c.maxSize := by
  by_cases hhas : c.cache.any (fun e => e.1 == ValidationCache.makeKey p h) = true
  · show (c.set p h v).cache.length ≤ c.maxSize
    rw [set_cache_existing c p h v hhas, List.length_map]
    exact hsz
  · have hh2 : c.cache.any (fun e => e.1 == ValidationCache.makeKey p h) = false :=
      Bool.eq_false_iff.mpr hhas
    by_cases hfull : c.maxSize ≤ c.cache.length
    · show (c.set p h v).cache.length ≤ c.maxSize
      rw [set_cache_new_full c p h v hh2 hfull]
      have hsz2 : c.cache.length ≤ c.maxSize := hsz
      simp [List.length_append, List.length_tail]
      omega
    · show (c.set p h v).cache.length ≤ c.maxSize
      rw [set_cache_new_space c p h v hh2 (by omega)]
      have hsz2 : c.cache.length ≤ c.maxSize := hsz
      simp [List.length_append]
      omega

theorem applyOps_size_le (ops : List CacheOp) :
    ∀ (c : ValidationCache), 1 ≤ c.maxSize → c.size ≤ c.maxSize →
    (applyOps c ops).size ≤ c.maxSize := by
  induction ops with
  | nil =>
    intro c _ hsz
    exact hsz
  | cons op rest ih =>
    intro c hmax hsz
    show (applyOps (applyOp c op) rest).size ≤ c.maxSize
    cases op with
    | set p h v =>
      have hm2 : (c.set p h v).maxSize = c.maxSize := rfl
      have := ih (c.set p h v) (by rw [hm2]; exact hmax)
        (by rw [hm2]; exact set_size_le c p h v hmax hsz)
      rw [hm2] at this
      exact this
    | get p h =>
      exact ih c hmax hsz
    | clear =>
      have hm2 : c.clear.maxSize = c.maxSize := rfl
      have hsz2 : c.clear.size ≤ c.maxSize := by
        show ([] : List (String × ValidationResult)).length ≤ c.maxSize
        simp
      have := ih c.clear (by rw [hm2]; exact hmax) (by rw [hm2]; exact hsz2)
      rw [hm2] at this
      exact this

theorem set_size0_step (c : ValidationCache) (p h : String) (v : ValidationResult)
    (hmax : c.maxSize = 0) (hsz : c.size = 1) : (c.set p h v).size = 1 := by
  by_cases hhas : c.cache.any (fun e => e.1 == ValidationCache.makeKey p h) = true
  · show (c.set p h v).cache.length = 1
    rw [set_cache_existing c p h v hhas, List.length_map]
    exact hsz
  · have hh2 : c.cache.any (fun e => e.1 == ValidationCache.makeKey p h) = false :=
      Bool.eq_false_iff.mpr hhas
    show (c.set p h v).cache.length = 1
    rw [set_cache_new_full c p h v hh2 (by omega)]
    have hsz2 : c.cache.length = 1 := hsz
    simp [List.length_append, List.length_tail]
    omega

theorem setAll_size0 (sets : List (String × String × ValidationResult)) :
    ∀ (c : ValidationCache), c.maxSize = 0 → c.size = 1 →
    (setAll c sets).size = 1 := by
  induction sets with
  | nil =>
    intro c _ hsz
    exact hsz
  | cons it rest ih =>
    intro c hmax hsz
    show (setAll (c.set it.1 it.2.1 it.2.2) rest).size = 1
    exact ih _ (by rw [show (c.set it.1 it.2.1 it.2.2).maxSize = c.maxSize from rfl]; exact hmax)
      (set_size0_step c it.1 it.2.1 it.2.2 hmax hsz)

/-- C9: the implicit size invariant and the `maxSize = 0` edge case.  A
cache constructed with `maxSize >= 1` satisfies `size <= maxSize` after any
sequence of `get`/`set`/`clear` operations; a cache constructed with
`maxSize = 0` still accepts entries: the first `set` makes its size 1
(exceeding `maxSize`), and the size remains 1 under any further `set`s. -/
theorem cache_size_invariant :
    (∀ (m : Nat), 1 ≤ m → ∀ (ops : List CacheOp),
      (applyOps (ValidationCache.empty m) ops).size ≤ m) ∧
    (∀ (p h : String) (v : ValidationResult),
      ((ValidationCache.empty 0).set p h v).size = 1) ∧
    (∀ (sets : List (String × String × ValidationResult)) (p h : String)
        (v : ValidationResult),
      (setAll ((ValidationCache.empty 0).set p h v) sets).size = 1) := by
  refine ⟨?_, ?_, ?_⟩
  · intro m hm ops
    have := applyOps_size_le ops (ValidationCache.empty m) hm (by
      show ([] : List (String × ValidationResult)).length ≤ m
      simp)
    exact this
  · intro p h v
    rfl
  · intro sets p h v
    exact setAll_size0 sets _ rfl rfl

/-- A sample valid validation result. -/
def vr : ValidationResult := ⟨true, []⟩

/-- A second, different sample validation result. -/
def vr2 : ValidationResult := ⟨false, []⟩

/-- A sample one-entry cache with `maxSize = 1`. -/
def cW : ValidationCache := ⟨[(ValidationCache.makeKey "a" "h", vr)], 1⟩

theorem cache_set_contract_witness :
    (cW.set "a" "h" vr2).size = cW.size ∧
    ((setAll (ValidationCache.empty 1) [("a", "h", vr)]).set "b" "h" vr2).size = 1 ∧
    (cW.set "b" "h" vr2).cache =
      cW.cache.tail ++ [(ValidationCache.makeKey "b" "h", vr2)] :=
  ⟨(cache_set_contract.1 cW "a" "h" vr2 (by decide)).1,
   (cache_set_contract.2.2 1 [("a", "h", vr)] "b" "h" vr2
     (by decide) rfl (by decide) (by decide)).2.1,
   (cache_set_contract.2.1 cW "b" "h" vr2 (by decide) rfl (by decide)).1⟩

theorem cache_get_exact_match_witness :
    ((ValidationCache.empty 1000).set "/user/name" "hash123" vr).get
      "/user/name" "hash123" = some vr ∧
    ((ValidationCache.empty 1000).set "/user/name" "hash123" vr).get
      "/user/name" "hash456" = none ∧
    ((ValidationCache.empty 1000).set "/user/name" "hash123" vr).get
      "/user/age" "hash123" = none :=
  have hw := cache_get_exact_match 1000 "/user/name" "hash123" vr
  ⟨hw.1, hw.2.1 "hash456" (by decide), hw.2.2 "/user/age" (by decide)⟩

theorem cache_size_invariant_witness :
    (applyOps (ValidationCache.empty 2)
      [.set "a" "h" vr, .set "b" "h" vr, .set "c" "h" vr]).size ≤ 2 ∧
    ((ValidationCache.empty 0).set "a" "h" vr).size = 1 ∧
    (setAll ((ValidationCache.empty 0).set "a" "h" vr) [("b", "h", vr)]).size = 1 :=
  ⟨cache_size_invariant.1 2 (by decide) _,
   cache_size_invariant.2.1 "a" "h" vr,
   cache_size_invariant.2.2 [("b", "h", vr)] "a" "h" vr⟩

theorem compilePointer_parsePointer_roundtrip_witness :
    Except.map compilePointer (parsePointer "/a~1b/c~0d") = .ok "/a~1b/c~0d" ∧
    compilePointer ["a/b"] = "/a~1b" ∧
    compilePointer ["a~b"] = "/a~0b" :=
  compilePointer_parsePointer_roundtrip "/a~1b/c~0d" (by decide)

theorem traversePath_navigation_witness :
    traverseLoop (.object ([propN "b" (numN 1)] ++
        propN "a" (numN 2) :: [propN "a" (numN 3)]) loc0)
      ((propN "a" (numN 2)).key.value :: []) =
      traverseLoop (propN "a" (numN 2)).value [] ∧
    traverseLoop (.array [numN 5, numN 6] loc0) ["1"] =
      traverseLoop (([numN 5, numN 6] : List DataNode).get ⟨1, by decide⟩) [] ∧
    traverseLoop (.object [propN "a" (numN 1)] loc0) ["zz"] = none ∧
    traverseLoop (.array [numN 5] loc0) ["x"] = none ∧
    traverseLoop (.array [numN 5] loc0) ["7"] = none ∧
    getByPointer ⟨.object [propN "a" (numN 7)] loc0, loc0⟩ "/a" =
      traverseLoop (.object [propN "a" (numN 7)] loc0) ["a"] := by
  have hn := traversePath_navigation
  refine ⟨?_, ?_, ?_, ?_, ?_, ?_⟩
  · exact hn.1 loc0 [propN "b" (numN 1)] (propN "a" (numN 2)) [propN "a" (numN 3)] []
      (by decide)
  · exact hn.2.2.1 loc0 [numN 5, numN 6] "1" [] 1 (by decide) (by decide)
  · exact hn.2.1 loc0 [propN "a" (numN 1)] "zz" [] (by decide)
  · exact hn.2.2.2.1 loc0 [numN 5] "x" [] (by decide)
  · exact hn.2.2.2.2.1 loc0 [numN 5] "7" [] 7 (by decide) (by decide)
  · exact hn.2.2.2.2.2.2 ⟨.object [propN "a" (numN 7)] loc0, loc0⟩ "/a" ["a"]
      (by decide) rfl

theorem getByPointer_no_throw_witness :
    getByPointer ⟨numN 1, loc0⟩ "" = some (numN 1) ∧
    (∃ e, parsePointer "abc" = .error e) ∧
    getByPointer ⟨numN 1, loc0⟩ "abc" = none := by
  have hq := getByPointer_no_throw ⟨numN 1, loc0⟩ ""
  have hq2 := getByPointer_no_throw ⟨numN 1, loc0⟩ "abc"
  have h2 := hq2.2 (by decide) (by decide)
  exact ⟨hq.1 rfl, h2.1, h2.2⟩

end Dastardly
